import Mathlib

/-!
Verification development for the `hmr` program (src/bsutils/methseg/hmr.cpp).

The file shallowly embeds the pipeline stages that the specification
describes: the zero-coverage filter and desert segmenter
(`separate_regions`), the record loader (`load_cpgs`), the domain builder
(`build_domains`), the per-chain count shuffler (`shuffle_cpg_sites`) and
the FDR cutoff (`get_posterior_cutoff`).  C++ `double` scores are modelled
as exact rationals; the two floating-point constants the code returns
(`numeric_limits<double>::max()` / `::min()`) are modelled by their exact
rational values.  `size_t` arithmetic is modelled as `Nat` with explicit
wrap-around (mod 2^64) where the code subtracts.
-/

namespace Hmr

/-- `SimpleGenomicRegion`: chromosome (as an id), start, end. -/
structure Site where
  chrom : Nat
  start : Nat
  stop : Nat
deriving DecidableEq, Repr

/-- `GenomicRegion` as used for domains: location plus a numeric name id and
a score.  The extra `closed` flag instruments whether `set_end`/`set_score`
were applied to the region after it was pushed, i.e. whether the domain was
completed by `build_domains` (the C++ code carries no such flag; it is the
observation needed to talk about "completed" domains). -/
structure Dom where
  chrom : Nat
  start : Nat
  stop : Nat
  name : Nat
  score : ℚ
  closed : Bool
deriving DecidableEq, Repr

/-- A BED record as read by `load_cpgs`: location, name field, score field. -/
structure BedRecord where
  chrom : Nat
  start : Nat
  stop : Nat
  name : List Char
  score : ℚ
deriving DecidableEq, Repr

/-- Result of loading one BED record in `load_cpgs`. -/
structure LoadedCpg where
  site : Site
  meth : ℚ × ℚ
  reads : Nat
deriving DecidableEq, Repr

/-- The four in/out vectors of `separate_regions` after it returns. -/
structure SepResult where
  cpgs : List Site
  meth : List (ℚ × ℚ)
  reads : List Nat
  resetPoints : List Nat
deriving DecidableEq, Repr

/-- `numeric_limits<size_t>::max()`. -/
def sizeMax : Nat := 2 ^ 64 - 1

/-- `size_t` subtraction `a - b` (wrap-around mod 2^64). -/
def wsub (a b : Nat) : Nat := ((((a : Int) - (b : Int)) % (2 ^ 64))).toNat

/-- Default `Site` used to state `getD` reads. -/
def stD : Site := ⟨0, 0, 0⟩

/-- `cpgs[i]` as a total read. -/
def siteAt (cpgs : List Site) (k : Nat) : Site := cpgs.getD k stD

/-- The `dist` computed by the segregation loop of `separate_regions` at
index `i` of the retained table: the `size_t` distance to the previous
site's start when `i > 0` and both sites share a chromosome, otherwise
`numeric_limits<size_t>::max()`.  (`prev_cpg` always holds the previous
site's start because it is updated on every iteration.) -/
def distAt (sites : List Site) (i : Nat) : Nat :=
  if 0 < i ∧ (siteAt sites i).chrom = (siteAt sites (i - 1)).chrom then
    wsub (siteAt sites i).start (siteAt sites (i - 1)).start
  else sizeMax

/-- The `reset_points` pushed by `separate_regions` over the retained
table: every index whose `dist` exceeds the desert size, in increasing
order.  (The C++ code pushes no entry after the loop.) -/
def resetPointsOf (D : Nat) (sites : List Site) : List Nat :=
  (List.range sites.length).filter (fun i => decide (D < distAt sites i))

/-- The zero-coverage filter of `separate_regions`: keep the parallel
entries whose read count is positive, in order. -/
def retainTriples (cpgs : List Site) (meth : List (ℚ × ℚ)) (reads : List Nat) :
    List (Site × (ℚ × ℚ) × Nat) :=
  (cpgs.zip (meth.zip reads)).filter (fun t => decide (0 < t.2.2))

/-- `separate_regions`: filter out zero-read sites, then compute
`reset_points` over the retained table. -/
def separateRegions (D : Nat) (cpgs : List Site) (meth : List (ℚ × ℚ))
    (reads : List Nat) : SepResult :=
  let t := retainTriples cpgs meth reads
  let c := t.map (fun x => x.1)
  ⟨c, t.map (fun x => x.2.1), t.map (fun x => x.2.2), resetPointsOf D c⟩

/-- Accumulate leading decimal digits (the digit-consuming loop of `atoi`). -/
def digitsToNat : List Char → Nat → Nat
  | [], acc => acc
  | c :: cs, acc =>
      if c.isDigit then digitsToNat cs (acc * 10 + (c.toNat - 48)) else acc

/-- `atoi`: skip leading whitespace, optional sign, then leading digits;
anything else yields the value accumulated so far (0 if none). -/
def atoiInt (s : List Char) : Int :=
  let t := s.dropWhile Char.isWhitespace
  if t.head? = some '-' then -((digitsToNat (t.drop 1) 0 : Nat) : Int)
  else if t.head? = some '+' then ((digitsToNat (t.drop 1) 0 : Nat) : Int)
  else ((digitsToNat t 0 : Nat) : Int)

/-- `r.substr(r.find_first_of(":") + 1)`: the suffix after the first colon;
when there is no colon, `find_first_of` returns `npos` and `npos + 1 = 0`,
so the whole string is returned. -/
def afterColon (s : List Char) : List Char :=
  match s.findIdx? (fun c => c == ':') with
  | some i => s.drop (i + 1)
  | none => s

/-- The coverage extracted from a record's name field:
`atoi(r.substr(r.find_first_of(":") + 1).c_str())` stored into a
`vector<size_t>` (an `int` converted to `size_t`, hence mod 2^64). -/
def parseCoverage (s : List Char) : Nat :=
  ((atoiInt (afterColon s)) % (2 ^ 64)).toNat

/-- C++ `int(x)` on a real value: truncation toward zero. -/
def cppTrunc (q : ℚ) : Int := if 0 ≤ q then Int.floor q else -(Int.floor (-q))

/-- Loading of one record by `load_cpgs`: the site coordinates are copied,
the read count comes from the name suffix after the colon, and the meth
pair is set to `(int(score * reads), int(reads - int(score * reads)))`. -/
def loadCpg (rec : BedRecord) : LoadedCpg :=
  let rd := parseCoverage rec.name
  let m1 : ℚ := ((cppTrunc (rec.score * (rd : ℚ))) : ℚ)
  let m2 : ℚ := ((cppTrunc ((rd : ℚ) - m1)) : ℚ)
  ⟨⟨rec.chrom, rec.start, rec.stop⟩, (m1, m2), rd⟩

/-- The mutable state of `build_domains`' main loop.  `domains` holds the
output vector with its most recently pushed element first (the vector's
`back()`), `oob` records whether the unchecked `reset_points[reset_idx]`
read was ever performed with `reset_idx` out of bounds. -/
structure BuildState where
  domains : List Dom
  nDomains : Nat
  resetIdx : Nat
  prevEnd : Nat
  inDomain : Bool
  score : ℚ
  oob : Bool
deriving DecidableEq, Repr

/-- `domains.back().set_end(prev_end); domains.back().set_score(score)`. -/
def closeTop (doms : List Dom) (pe : Nat) (sc : ℚ) : List Dom :=
  match doms with
  | [] => []
  | d :: rest => { d with stop := pe, score := sc, closed := true } :: rest

/-- The `if (reset_points[reset_idx] == i)` block of `build_domains`.
The C++ read `reset_points[reset_idx]` is unchecked; the model performs it
with `getD` and records in `oob` whenever the index was out of bounds. -/
def resetPhase (rp : List Nat) (s : BuildState) (i : Nat) : BuildState :=
  let ob := s.oob || decide (rp.length ≤ s.resetIdx)
  if rp.getD s.resetIdx 0 = i then
    if s.inDomain then
      { s with oob := ob,
               domains := closeTop s.domains s.prevEnd s.score,
               inDomain := false, score := 0, resetIdx := s.resetIdx + 1 }
    else { s with oob := ob, resetIdx := s.resetIdx + 1 }
  else { s with oob := ob }

/-- The `if (classes[i] == CLASS_ID) ... else if (in_domain) ...` block of
`build_domains`: on a foreground site open a domain when none is open and
accumulate the posterior score; on a background site close the open domain
at `prev_end`. -/
def classPhase (cpgs : List Site) (post : List ℚ) (classes : List Bool)
    (s : BuildState) (i : Nat) : BuildState :=
  if classes.getD i false = true then
    if s.inDomain then { s with score := s.score + post.getD i 0 }
    else
      { s with inDomain := true,
               domains := ⟨(siteAt cpgs i).chrom, (siteAt cpgs i).start,
                           (siteAt cpgs i).stop, s.nDomains, 0, false⟩ :: s.domains,
               nDomains := s.nDomains + 1,
               score := s.score + post.getD i 0 }
  else if s.inDomain then
    { s with domains := closeTop s.domains s.prevEnd s.score,
             inDomain := false, score := 0 }
  else s

/-- One iteration of `build_domains`' loop body at index `i`. -/
def buildStep (cpgs : List Site) (post : List ℚ) (rp : List Nat)
    (classes : List Bool) (s : BuildState) (i : Nat) : BuildState :=
  let s2 := classPhase cpgs post classes (resetPhase rp s i) i
  { s2 with prevEnd := (siteAt cpgs i).stop }

/-- Initial state of `build_domains`: `reset_idx = 1`, `prev_end = 0`,
nothing open, empty output. -/
def buildInit : BuildState := ⟨[], 0, 1, 0, false, 0, false⟩

/-- State of `build_domains` after processing the first `i` sites. -/
def buildGo (cpgs : List Site) (post : List ℚ) (rp : List Nat)
    (classes : List Bool) : Nat → BuildState
  | 0 => buildInit
  | i + 1 => buildStep cpgs post rp classes (buildGo cpgs post rp classes i) i

/-- `build_domains`: run the loop over all of `classes`.  There is no close
after the loop (the source ends with `// Do we miss the final domain?????`). -/
def buildDomains (cpgs : List Site) (post : List ℚ) (rp : List Nat)
    (classes : List Bool) : BuildState :=
  buildGo cpgs post rp classes classes.length

/-- Swap the elements at positions `i` and `j` (`std::iter_swap`); outside
the list the call leaves it unchanged (never reached by the pipeline). -/
def listSwap (l : List α) (i j : Nat) : List α :=
  match l[i]?, l[j]? with
  | some a, some b => (l.set i b).set j a
  | _, _ => l

/-- The loop of `std::random_shuffle(first, last)`:
`for (i = 1; i < n; ++i) iter_swap(first + i, first + r(i) % (i + 1))`,
with the random source abstracted as `r`.  `fuel` counts the remaining
iterations (`n - k` at loop counter `k`), keeping the recursion structural. -/
def fyGo (r : Nat → Nat) : Nat → Nat → List α → List α
  | 0, _, l => l
  | m + 1, k, l => fyGo r m (k + 1) (listSwap l k (r k % (k + 1)))

/-- `std::random_shuffle` over a whole list, random source `r`. -/
def fy (r : Nat → Nat) (l : List α) : List α := fyGo r (l.length - 1) 1 l

/-- The sublist at index range `[a, b)` (an iterator range into a vector). -/
def sliceB (a b : Nat) (l : List α) : List α := (l.drop a).take (b - a)

/-- `std::random_shuffle(m.begin() + a, m.begin() + b)`: permute the range
`[a, b)` in place, leaving the rest of the vector untouched. -/
def shuffleSeg (r : Nat → Nat) (a b : Nat) (m : List α) : List α :=
  m.take a ++ fy r (sliceB a b m) ++ m.drop b

/-- `shuffle_cpg_sites`: for `i` from 0 to `reset_points.size() - 2`,
shuffle `meth` on the range `[reset_points[i], reset_points[i+1])`.  The
random source is abstracted per call as `r i`.  (The C++ loop bound
`size() - 1` is a `size_t` subtraction; the pipeline only reaches this with
a non-empty `reset_points`, where it agrees with the `Nat` subtraction.) -/
def shuffleCpgSites (r : Nat → Nat → Nat) (rp : List Nat)
    (meth : List (ℚ × ℚ)) : List (ℚ × ℚ) :=
  (List.range (rp.length - 1)).foldl
    (fun acc i => shuffleSeg (r i) (rp.getD i 0) (rp.getD (i + 1) 0) acc) meth

/-- State of `shuffle_cpg_sites`' loop after the first `k` iterations. -/
def shuffleUpTo (r : Nat → Nat → Nat) (rp : List Nat) (meth : List (ℚ × ℚ))
    (k : Nat) : List (ℚ × ℚ) :=
  (List.range k).foldl
    (fun acc i => shuffleSeg (r i) (rp.getD i 0) (rp.getD (i + 1) 0) acc) meth

/-- Start of chain `i` of the segmentation: the `i`-th reset point. -/
def chainStart (rp : List Nat) (i : Nat) : Nat := rp.getD i 0

/-- End (exclusive) of chain `i` of the segmentation: the next reset point,
or the table size `n` for the last chain. -/
def chainEnd (rp : List Nat) (n i : Nat) : Nat :=
  if i + 1 < rp.length then rp.getD (i + 1) 0 else n

/-- `numeric_limits<double>::max()`, exactly: `(2^53 - 1) * 2^971`. -/
def dblMax : ℚ := (2 ^ 53 - 1) * 2 ^ 971

/-- `numeric_limits<double>::min()`, exactly: `2^(-1022)`, the smallest
positive normalized double (not the least representable value). -/
def dblMin : ℚ := 1 / 2 ^ 1022

/-- The `scores` vector of `get_posterior_cutoff` after `std::sort`:
the domain scores in ascending order. -/
def sortScores (domains : List Dom) : List ℚ :=
  (domains.map Dom.score).insertionSort (fun a b => a ≤ b)

/-- `static_cast<size_t>(domains.size() * (1 - fdr))` for `fdr ≤ 1`:
truncation of a non-negative value, i.e. the floor. -/
def quantIndex (n : Nat) (fdr : ℚ) : Nat := (Int.floor ((n : ℚ) * (1 - fdr))).toNat

/-- The "choose the more stringent cutoff" loop of `get_posterior_cutoff`:
scan `j` upward from `index` and return the first position whose score
strictly exceeds `scores[index]`, or `index` itself when none exists.
`fuel` is `scores.size() - j`, keeping the recursion structural. -/
def cutoffGo (s : List ℚ) (idx : Nat) : Nat → Nat → Nat
  | 0, _ => idx
  | m + 1, j => if s.getD idx 0 < s.getD j 0 then j else cutoffGo s idx m (j + 1)

/-- `get_posterior_cutoff(domains, fdr)`. -/
def getPosteriorCutoff (domains : List Dom) (fdr : ℚ) : ℚ :=
  if fdr ≤ 0 then dblMax
  else if 1 < fdr then dblMin
  else
    let s := sortScores domains
    let idx := quantIndex domains.length fdr
    s.getD (cutoffGo s idx (s.length - idx) idx) 0

/-- Modelled from the spec's words for comparison (claim C6): "pick the
score at the index corresponding to the (1 − fdr) quantile, then walk
forward from that index to the first strictly greater score if one exists
in the remainder". -/
def specQuantileCutoff (s : List ℚ) (idx : Nat) : ℚ :=
  ((s.drop idx).find? (fun v => decide (s.getD idx 0 < v))).getD (s.getD idx 0)

/-- `classes[i]` (false off the end, used only in-bounds by the claims). -/
def cls (classes : List Bool) (k : Nat) : Bool := classes.getD k false

/-- `post_scores[i]` as a total read. -/
def psAt (post : List ℚ) (k : Nat) : ℚ := post.getD k 0

/-- Sum of the posterior scores of sites `a..b` inclusive. -/
def sumPost (post : List ℚ) (a b : Nat) : ℚ :=
  (Finset.Ico a (b + 1)).sum (fun k => psAt post k)

/-- A reset-point list as the spec describes it: strictly increasing,
beginning with 0 and ending with the end-of-table sentinel `n`. -/
def ValidReset (rp : List Nat) (n : Nat) : Prop :=
  List.Chain' (fun a b => a < b) rp ∧ rp.head? = some 0 ∧ rp.getLast? = some n

/-- Site `a` starts a maximal run: it is a chain start, or its predecessor
is background. -/
def LeftMax (rp : List Nat) (classes : List Bool) (a : Nat) : Prop :=
  a ∈ rp ∨ (0 < a ∧ cls classes (a - 1) = false)

/-- Site `b` ends a maximal run: the table ends, a new chain starts, or the
next site is background. -/
def RightMaxAt (rp : List Nat) (classes : List Bool) (b : Nat) : Prop :=
  b + 1 = classes.length ∨ (b + 1) ∈ rp ∨ cls classes (b + 1) = false

/-- No chain boundary falls strictly inside `(a, b]`: the whole run lies in
one chain. -/
def InOneChain (rp : List Nat) (a b : Nat) : Prop :=
  ∀ p ∈ rp, p ≤ a ∨ b < p

/-- Sites `a..b` all carry the foreground label. -/
def FgRun (classes : List Bool) (a b : Nat) : Prop :=
  a ≤ b ∧ b < classes.length ∧ ∀ k, a ≤ k → k ≤ b → cls classes k = true

/-- What the spec promises of a completed domain: it is a maximal
foreground run `a..b` inside one chain, its location is the first member's
chromosome/start and the last member's end, its score is the sum of the
members' posterior scores. -/
def DomSpec (cpgs : List Site) (post : List ℚ) (rp : List Nat)
    (classes : List Bool) (d : Dom) : Prop :=
  ∃ a b, FgRun classes a b ∧ LeftMax rp classes a ∧ RightMaxAt rp classes b ∧
    InOneChain rp a b ∧
    d.chrom = (siteAt cpgs a).chrom ∧ d.start = (siteAt cpgs a).start ∧
    d.stop = (siteAt cpgs b).stop ∧ d.score = sumPost post a b

/-- The shape of a `build_domains` state with an open domain, before
processing site `i`: the open run started at some `a < i`, all of
`a..i-1` is foreground, `a` is left-maximal, the run has met no chain
boundary, the accumulator holds the run's score so far, and the vector's
back is the (unclosed) region pushed at `a`, every earlier region being
closed. -/
def OpenSpec (cpgs : List Site) (post : List ℚ) (rp : List Nat)
    (classes : List Bool) (i : Nat) (s : BuildState) : Prop :=
  ∃ a, a < i ∧ (∀ k, a ≤ k → k < i → cls classes k = true) ∧
    LeftMax rp classes a ∧ (∀ p ∈ rp, p ≤ a ∨ i - 1 < p) ∧
    s.score = sumPost post a (i - 1) ∧
    ∃ d rest, s.domains = d :: rest ∧ d.closed = false ∧
      d.chrom = (siteAt cpgs a).chrom ∧ d.start = (siteAt cpgs a).start ∧
      d.stop = (siteAt cpgs a).stop ∧ ∀ d' ∈ rest, d'.closed = true

/-- Like `OpenSpec`, but after the reset check of iteration `i` has been
performed: the open run is additionally known not to meet the boundary at
`i` itself (chain condition strengthened from `i - 1 < p` to `i < p`). -/
def OpenSpecB (cpgs : List Site) (post : List ℚ) (rp : List Nat)
    (classes : List Bool) (i : Nat) (s : BuildState) : Prop :=
  ∃ a, a < i ∧ (∀ k, a ≤ k → k < i → cls classes k = true) ∧
    LeftMax rp classes a ∧ (∀ p ∈ rp, p ≤ a ∨ i < p) ∧
    s.score = sumPost post a (i - 1) ∧
    ∃ d rest, s.domains = d :: rest ∧ d.closed = false ∧
      d.chrom = (siteAt cpgs a).chrom ∧ d.start = (siteAt cpgs a).start ∧
      d.stop = (siteAt cpgs a).stop ∧ ∀ d' ∈ rest, d'.closed = true

/-- Mid-loop invariant of `build_domains`: the state after the reset-check
phase of iteration `i`, before the class phase. -/
structure MInv (cpgs : List Site) (post : List ℚ) (rp : List Nat)
    (classes : List Bool) (i : Nat) (s : BuildState) : Prop where
  oobF : s.oob = false
  rOne : 1 ≤ s.resetIdx
  rLt : s.resetIdx < rp.length
  rGe1 : i + 1 ≤ rp.getD s.resetIdx 0
  rPassed1 : ∀ j, 1 ≤ j → j < s.resetIdx → rp.getD j 0 < i + 1
  pe : s.prevEnd = (if i = 0 then 0 else (siteAt cpgs (i - 1)).stop)
  cOK : ∀ d ∈ s.domains, d.closed = true → DomSpec cpgs post rp classes d
  opn : s.inDomain = true → OpenSpecB cpgs post rp classes i s
  allC : s.inDomain = false → ∀ d ∈ s.domains, d.closed = true
  ninB : s.inDomain = false →
    i = 0 ∨ cls classes (i - 1) = false ∨ i ∈ rp
  sc0 : s.inDomain = false → s.score = 0

/-- Loop invariant of `build_domains`, before processing site `i`. -/
structure BInv (cpgs : List Site) (post : List ℚ) (rp : List Nat)
    (classes : List Bool) (i : Nat) (s : BuildState) : Prop where
  oobF : s.oob = false
  rOne : 1 ≤ s.resetIdx
  rLt : s.resetIdx < rp.length
  rGe : i ≤ rp.getD s.resetIdx 0
  rPassed : ∀ j, 1 ≤ j → j < s.resetIdx → rp.getD j 0 < i
  pe : s.prevEnd = (if i = 0 then 0 else (siteAt cpgs (i - 1)).stop)
  cOK : ∀ d ∈ s.domains, d.closed = true → DomSpec cpgs post rp classes d
  opn : s.inDomain = true → OpenSpec cpgs post rp classes i s
  allC : s.inDomain = false → ∀ d ∈ s.domains, d.closed = true
  nin : s.inDomain = false → i = 0 ∨ cls classes (i - 1) = false
  sc0 : s.inDomain = false → s.score = 0

/-! ## Theorems -/

theorem wsub_eq {a b : Nat} (hle : b ≤ a) (hlt : a < 2 ^ 64) :
    wsub a b = a - b := by
  unfold wsub
  have h0 : (0 : ℤ) ≤ (a : ℤ) - b := by
    have : (b : ℤ) ≤ a := by exact_mod_cast hle
    omega
  have h1 : (a : ℤ) - b < 2 ^ 64 := by
    have : (a : ℤ) < 2 ^ 64 := by exact_mod_cast hlt
    omega
  rw [Int.emod_eq_of_lt h0 h1]
  omega

theorem mem_resetPointsOf {D : Nat} {sites : List Site} {i : Nat} :
    i ∈ resetPointsOf D sites ↔ i < sites.length ∧ D < distAt sites i := by
  simp [resetPointsOf, List.mem_filter, List.mem_range]

theorem siteAt_mem {sites : List Site} {i : Nat} (hi : i < sites.length) :
    siteAt sites i ∈ sites := by
  unfold siteAt
  rw [List.getD_eq_getElem _ _ hi]
  exact List.getElem_mem hi

/-- C1.  The Desert Segmenter removes the zero-coverage sites and its
reset list is strictly increasing and begins with 0, but it does NOT
contain the end-of-table sentinel claimed by the spec: on a table with one
retained site the reset list is `[0]` and the sentinel entry `1` (the
number of retained sites) is absent.  The downstream consumers
(`build_domains`' unchecked `reset_points[reset_idx]` reads and
`shuffle_cpg_sites`' `size() - 1` loop) assume the sentinel, so the
missing final `push_back` is a code bug. -/
theorem C1_missing_sentinel :
    (separateRegions 2000 [⟨0, 100, 102⟩] [(1, 0)] [3]).cpgs.length = 1 ∧
    (separateRegions 2000 [⟨0, 100, 102⟩] [(1, 0)] [3]).resetPoints = [0] ∧
    (1 : Nat) ∉ (separateRegions 2000 [⟨0, 100, 102⟩] [(1, 0)] [3]).resetPoints :=
  ⟨by decide, by decide, by decide⟩

/-- C2.  With the reset list actually produced by `separate_regions`
(here `[0]`, for a single retained site) and a non-empty class sequence,
`build_domains` performs the read `reset_points[reset_idx]` with
`reset_idx = 1` out of the bounds of the one-element list already at
`i = 0`: the instrumented out-of-bounds flag is raised.  The claimed
safety property fails on the code. -/
theorem C2_reset_read_out_of_bounds :
    (buildDomains [⟨0, 100, 102⟩] [1 / 2]
      (separateRegions 2000 [⟨0, 100, 102⟩] [(1, 0)] [3]).resetPoints
      [true]).oob = true := by decide

theorem dblMin_pos : (0 : ℚ) < dblMin := by norm_num [dblMin]

theorem dblMax_pos : (0 : ℚ) < dblMax := by norm_num [dblMax]

theorem dblMin_lt_dblMax : dblMin < dblMax := by
  have h1 : dblMin < 1 := by norm_num [dblMin]
  have h2 : (1 : ℚ) < dblMax := by norm_num [dblMax]
  linarith

theorem cutoff_of_nonpos (domains : List Dom) {fdr : ℚ} (h : fdr ≤ 0) :
    getPosteriorCutoff domains fdr = dblMax := by
  simp [getPosteriorCutoff, h]

theorem cutoff_of_gt_one (domains : List Dom) {fdr : ℚ} (h : 1 < fdr) :
    getPosteriorCutoff domains fdr = dblMin := by
  have h0 : ¬ fdr ≤ 0 := by linarith
  simp [getPosteriorCutoff, h0, h]

/-- C5 (amended).  `get_posterior_cutoff` returns the largest finite
double when `fdr ≤ 0`; when `fdr > 1` it returns
`numeric_limits<double>::min()`, i.e. the smallest POSITIVE normalized
double `2^(-1022)` — a strictly positive value, not the least
representable score — so it admits exactly the domains whose score is at
least `2^(-1022)`, not all domains. -/
theorem C5_boundary_branches (domains : List Dom) (fdr : ℚ) :
    (fdr ≤ 0 → getPosteriorCutoff domains fdr = dblMax) ∧
    (1 < fdr → getPosteriorCutoff domains fdr = dblMin ∧
      (0 : ℚ) < dblMin ∧ dblMin < dblMax) := by
  constructor
  · intro h
    exact cutoff_of_nonpos domains h
  · intro h
    exact ⟨cutoff_of_gt_one domains h, dblMin_pos, dblMin_lt_dblMax⟩

theorem C5_boundary_branches_witness :
    getPosteriorCutoff [⟨0, 5, 10, 0, 0, false⟩] 0 = dblMax ∧
    getPosteriorCutoff [⟨0, 5, 10, 0, 0, false⟩] (3 / 2) = dblMin :=
  ⟨(C5_boundary_branches [⟨0, 5, 10, 0, 0, false⟩] 0).1 le_rfl,
   ((C5_boundary_branches [⟨0, 5, 10, 0, 0, false⟩] (3 / 2)).2 (by norm_num)).1⟩

/-- C5 (counterexample).  At `fdr = 3/2 > 1` and a null set containing a
domain of score 0 (`build_domains` produces exactly such entries for a
trailing open domain, whose score field is never set), the returned value
is `2^(-1022)`: it is not the minimum representable score (`-DBL_MAX`),
and the score 0 is NOT `≥` the returned value, so the cutoff does not
admit everything. -/
theorem C5_counterexample :
    getPosteriorCutoff [⟨0, 5, 10, 0, 0, false⟩] (3 / 2) = dblMin ∧
    dblMin ≠ -dblMax ∧ ¬ ((0 : ℚ) ≥ dblMin) := by
  refine ⟨by norm_num [getPosteriorCutoff], ?_, ?_⟩
  · intro h
    have h1 := dblMin_pos
    have h2 := dblMax_pos
    rw [h] at h1
    linarith
  · simp only [ge_iff_le, not_le]
    exact dblMin_pos

/-- C8.  A retained site `i > 0` is marked as a chain boundary exactly
when it sits on another chromosome than its predecessor or its start is
more than the desert size `D` beyond the predecessor's start; with
`D = 2000`, two sites 2001 apart give two chains and two sites 1999 apart
stay in one chain.  (Hypotheses: `D` below `SIZE_MAX`, starts
representable in `size_t`, and the sortedness `load_cpgs` enforces.) -/
theorem C8_desert_boundary (D : Nat) (sites : List Site)
    (hD : D < sizeMax)
    (hb : ∀ s ∈ sites, s.start < 2 ^ 64)
    (hs : ∀ i, 0 < i → i < sites.length →
      (siteAt sites i).chrom = (siteAt sites (i - 1)).chrom →
      (siteAt sites (i - 1)).start ≤ (siteAt sites i).start) :
    (∀ i, 0 < i → i < sites.length →
      (i ∈ resetPointsOf D sites ↔
        ¬ (siteAt sites i).chrom = (siteAt sites (i - 1)).chrom ∨
          D < (siteAt sites i).start - (siteAt sites (i - 1)).start)) ∧
    resetPointsOf 2000 [⟨0, 1000, 1001⟩, ⟨0, 3001, 3002⟩] = [0, 1] ∧
    resetPointsOf 2000 [⟨0, 1000, 1001⟩, ⟨0, 2999, 3000⟩] = [0] := by
  refine ⟨?_, by decide, by decide⟩
  intro i h0 hi
  rw [mem_resetPointsOf]
  by_cases hc : (siteAt sites i).chrom = (siteAt sites (i - 1)).chrom
  · have hle := hs i h0 hi hc
    have hlt : (siteAt sites i).start < 2 ^ 64 := hb _ (siteAt_mem hi)
    have hdist : distAt sites i =
        (siteAt sites i).start - (siteAt sites (i - 1)).start := by
      unfold distAt
      rw [if_pos ⟨h0, hc⟩]
      exact wsub_eq hle hlt
    rw [hdist]
    simp [hc, hi]
  · have hdist : distAt sites i = sizeMax := by
      unfold distAt
      rw [if_neg]
      rintro ⟨_, hcc⟩
      exact hc hcc
    rw [hdist]
    simp [hc, hi, hD]

theorem C8_desert_boundary_witness :
    resetPointsOf 2000 [⟨0, 1000, 1001⟩, ⟨0, 3001, 3002⟩] = [0, 1] ∧
    resetPointsOf 2000 [⟨0, 1000, 1001⟩, ⟨0, 2999, 3000⟩] = [0] :=
  (C8_desert_boundary 2000 [⟨0, 1000, 1001⟩, ⟨0, 3001, 3002⟩] (by decide)
    (by decide)
    (by
      intro i h0 hi _
      have hi2 : i < 2 := by simpa using hi
      have h1 : i = 1 := by omega
      subst h1
      decide)).2

theorem findIdx?_colon_append (ds : List Char) :
    ∀ (pre : List Char) (k : Nat), (':' : Char) ∉ pre →
      List.findIdx? (fun c => c == ':') (pre ++ ':' :: ds) k =
        some (pre.length + k) := by
  intro pre
  induction pre with
  | nil =>
    intro k _
    simp [List.findIdx?_cons]
  | cons c pre ih =>
    intro k hpre
    simp only [List.mem_cons, not_or] at hpre
    have hc : (c == ':') = false := by
      simp only [beq_eq_false_iff_ne, ne_eq]
      intro h
      exact hpre.1 h.symm
    rw [List.cons_append, List.findIdx?_cons, hc]
    simp only [Bool.false_eq_true, if_false]
    rw [ih (k + 1) hpre.2]
    congr 1
    simp only [List.length_cons]
    omega

theorem afterColon_append {pre ds : List Char} (hpre : (':' : Char) ∉ pre) :
    afterColon (pre ++ ':' :: ds) = ds := by
  unfold afterColon
  rw [findIdx?_colon_append ds pre 0 hpre]
  simp only [Nat.add_zero]
  rw [List.drop_append_eq_append_drop]
  have h1 : pre.length + 1 - pre.length = 1 := by omega
  simp [List.drop_eq_nil_of_le, h1]

theorem cppTrunc_intCast (z : ℤ) : cppTrunc ((z : ℚ)) = z := by
  unfold cppTrunc
  split
  · exact Int.floor_intCast z
  · have : (-(z : ℚ)) = (((-z : ℤ)) : ℚ) := by push_cast; ring
    rw [this, Int.floor_intCast]
    ring

/-- C10 (amended).  `load_cpgs` parses the coverage as `atoi` of the name
suffix after the first colon, sets the methylated count to
`int(score * coverage)` — truncation toward zero, NOT rounding — and the
unmethylated count to the remainder, so the two counts always sum to the
coverage; the zero-coverage filter of `separate_regions` retains only
entries with positive read count. -/
theorem C10_load_parse_and_sum (rec : BedRecord) (pre ds : List Char)
    (hname : rec.name = pre ++ ':' :: ds) (hpre : (':' : Char) ∉ pre) :
    (loadCpg rec).reads = ((atoiInt ds) % (2 ^ 64)).toNat ∧
    (loadCpg rec).meth.1 =
      ((cppTrunc (rec.score * ((loadCpg rec).reads : ℚ))) : ℚ) ∧
    (loadCpg rec).meth.1 + (loadCpg rec).meth.2 = ((loadCpg rec).reads : ℚ) ∧
    ∀ (cs : List Site) (ms : List (ℚ × ℚ)) (rs : List Nat),
      ∀ x ∈ retainTriples cs ms rs, 0 < x.2.2 := by
  refine ⟨?_, ?_, ?_, ?_⟩
  · simp [loadCpg, parseCoverage, hname, afterColon_append hpre]
  · simp [loadCpg]
  · simp only [loadCpg]
    have hcast : ((parseCoverage rec.name : ℚ) -
        ((cppTrunc (rec.score * (parseCoverage rec.name : ℚ))) : ℚ)) =
        ((((parseCoverage rec.name : ℤ) -
           cppTrunc (rec.score * (parseCoverage rec.name : ℚ))) : ℤ) : ℚ) := by
      push_cast
      ring
    rw [hcast, cppTrunc_intCast]
    push_cast
    ring
  · intro cs ms rs x hx
    have := (List.mem_filter.mp hx).2
    simpa using this

theorem C10_load_parse_and_sum_witness :
    (loadCpg ⟨0, 10, 11, ['C', 'p', 'G', ':', '5'], 1 / 2⟩).reads =
      ((atoiInt ['5']) % (2 ^ 64)).toNat ∧
    (loadCpg ⟨0, 10, 11, ['C', 'p', 'G', ':', '5'], 1 / 2⟩).meth.1 +
      (loadCpg ⟨0, 10, 11, ['C', 'p', 'G', ':', '5'], 1 / 2⟩).meth.2 =
      (((loadCpg ⟨0, 10, 11, ['C', 'p', 'G', ':', '5'], 1 / 2⟩).reads : ℚ)) :=
  ⟨(C10_load_parse_and_sum _ ['C', 'p', 'G'] ['5'] rfl (by decide)).1,
   (C10_load_parse_and_sum _ ['C', 'p', 'G'] ['5'] rfl (by decide)).2.2.1⟩

/-- C10 (counterexample).  On a record with score 1/2 and coverage 5 the
code computes `int(0.5 * 5) = 2` methylated reads, while the claimed
`round(score × coverage)` is 3: the loader truncates, it does not round. -/
theorem C10_counterexample :
    (loadCpg ⟨0, 10, 11, ['C', 'p', 'G', ':', '5'], 1 / 2⟩).meth.1 = 2 ∧
    round ((1 / 2 : ℚ) *
      ((loadCpg ⟨0, 10, 11, ['C', 'p', 'G', ':', '5'], 1 / 2⟩).reads : ℚ)) = 3 ∧
    ((2 : ℚ)) ≠ 3 := by
  have h5 : (loadCpg ⟨0, 10, 11, ['C', 'p', 'G', ':', '5'], 1 / 2⟩).reads = 5 := by
    decide
  refine ⟨?_, ?_, by norm_num⟩
  · show ((cppTrunc ((1 / 2 : ℚ) *
        ((parseCoverage ['C', 'p', 'G', ':', '5'] : Nat) : ℚ))) : ℚ) = 2
    have hcov : parseCoverage ['C', 'p', 'G', ':', '5'] = 5 := by decide
    rw [hcov]
    norm_num [cppTrunc]
  · rw [h5]
    norm_num [round_eq]

theorem cutoffGo_spec (s : List ℚ) (idx : Nat) :
    ∀ m j, m = s.length - j → j ≤ s.length →
      (cutoffGo s idx m j = idx ∧
        ∀ k, j ≤ k → k < s.length → s.getD k 0 ≤ s.getD idx 0) ∨
      (∃ j', cutoffGo s idx m j = j' ∧ j ≤ j' ∧ j' < s.length ∧
        s.getD idx 0 < s.getD j' 0 ∧
        ∀ k, j ≤ k → k < j' → s.getD k 0 ≤ s.getD idx 0) := by
  intro m
  induction m with
  | zero =>
    intro j hm _
    left
    refine ⟨rfl, ?_⟩
    intro k hk1 hk2
    omega
  | succ m ih =>
    intro j hm hj
    have hjlt : j < s.length := by omega
    have hstep : cutoffGo s idx (m + 1) j =
        if s.getD idx 0 < s.getD j 0 then j else cutoffGo s idx m (j + 1) := rfl
    by_cases hlt : s.getD idx 0 < s.getD j 0
    · right
      refine ⟨j, by rw [hstep, if_pos hlt], le_refl j, hjlt, hlt, ?_⟩
      intro k hk1 hk2
      omega
    · rcases ih (j + 1) (by omega) (by omega) with
        ⟨heq, hall⟩ | ⟨j', heq, hge, hlt', hgt, hmax⟩
      · left
        refine ⟨by rw [hstep, if_neg hlt, heq], ?_⟩
        intro k hk1 hk2
        rcases Nat.eq_or_lt_of_le hk1 with rfl | hk
        · exact le_of_not_lt hlt
        · exact hall k hk hk2
      · right
        refine ⟨j', by rw [hstep, if_neg hlt, heq], by omega, hlt', hgt, ?_⟩
        intro k hk1 hk2
        rcases Nat.eq_or_lt_of_le hk1 with rfl | hk
        · exact le_of_not_lt hlt
        · exact hmax k hk hk2

theorem cutoffGo_eq_find (s : List ℚ) (idx : Nat) :
    ∀ m j, m = s.length - j →
      s.getD (cutoffGo s idx m j) 0 =
        ((s.drop j).find? (fun v => decide (s.getD idx 0 < v))).getD
          (s.getD idx 0) := by
  intro m
  induction m with
  | zero =>
    intro j hm
    have hle : s.length ≤ j := by omega
    rw [List.drop_eq_nil_of_le hle]
    simp [cutoffGo]
  | succ m ih =>
    intro j hm
    have hjlt : j < s.length := by omega
    have hD : s.getD j 0 = s[j] := List.getD_eq_getElem s 0 hjlt
    have hstep : cutoffGo s idx (m + 1) j =
        if s.getD idx 0 < s.getD j 0 then j else cutoffGo s idx m (j + 1) := rfl
    rw [List.drop_eq_getElem_cons hjlt, List.find?_cons]
    by_cases hlt : s.getD idx 0 < s.getD j 0
    · have hp : (decide (s.getD idx 0 < s[j])) = true := by
        rw [← hD]
        exact decide_eq_true hlt
      rw [hstep, if_pos hlt, hp, hD]
      rfl
    · have hp : (decide (s.getD idx 0 < s[j])) = false := by
        rw [← hD]
        exact decide_eq_false hlt
      rw [hstep, if_neg hlt, hp, ih (j + 1) (by omega)]

theorem quantIndex_lt {n : Nat} {fdr : ℚ} (hn : 0 < n) (h0 : 0 < fdr)
    (h1 : fdr ≤ 1) : quantIndex n fdr < n := by
  unfold quantIndex
  have hnq : (0 : ℚ) < (n : ℚ) := by exact_mod_cast hn
  have hfl : Int.floor ((n : ℚ) * (1 - fdr)) < (n : ℤ) := by
    rw [Int.floor_lt]
    push_cast
    nlinarith
  have hfge : (0 : ℤ) ≤ Int.floor ((n : ℚ) * (1 - fdr)) := by
    rw [Int.floor_nonneg]
    nlinarith
  omega

theorem sortScores_perm (domains : List Dom) :
    List.Perm (sortScores domains) (domains.map Dom.score) :=
  List.perm_insertionSort _ _

theorem sortScores_length (domains : List Dom) :
    (sortScores domains).length = domains.length := by
  rw [(sortScores_perm domains).length_eq, List.length_map]

theorem sortScores_sorted (domains : List Dom) :
    List.Sorted (fun a b => a ≤ b) (sortScores domains) :=
  List.sorted_insertionSort _ _

theorem getPosteriorCutoff_mid (domains : List Dom) (fdr : ℚ)
    (h0 : 0 < fdr) (h1 : fdr ≤ 1) :
    getPosteriorCutoff domains fdr =
      (sortScores domains).getD
        (cutoffGo (sortScores domains) (quantIndex domains.length fdr)
          ((sortScores domains).length - quantIndex domains.length fdr)
          (quantIndex domains.length fdr)) 0 := by
  have hA : ¬ fdr ≤ 0 := by linarith
  have hB : ¬ 1 < fdr := by linarith
  simp [getPosteriorCutoff, hA, hB]

theorem cutoffGo_props {s : List ℚ} {idx : Nat} (hidx : idx < s.length) :
    cutoffGo s idx (s.length - idx) idx < s.length ∧
    s.getD idx 0 ≤ s.getD (cutoffGo s idx (s.length - idx) idx) 0 := by
  rcases cutoffGo_spec s idx (s.length - idx) idx rfl (by omega) with
    ⟨heq, _⟩ | ⟨j', heq, _, hlt, hgt, _⟩
  · rw [heq]
    exact ⟨hidx, le_refl _⟩
  · rw [heq]
    exact ⟨hlt, le_of_lt hgt⟩

theorem cutoff_mem (domains : List Dom) (fdr : ℚ) (hne : domains ≠ [])
    (h0 : 0 < fdr) (h1 : fdr ≤ 1) :
    getPosteriorCutoff domains fdr ∈ domains.map Dom.score := by
  rw [getPosteriorCutoff_mid domains fdr h0 h1]
  have hn : 0 < domains.length := List.length_pos.mpr hne
  have hidx : quantIndex domains.length fdr < (sortScores domains).length := by
    rw [sortScores_length]
    exact quantIndex_lt hn h0 h1
  have hlt := (cutoffGo_props hidx).1
  rw [List.getD_eq_getElem _ _ hlt]
  exact ((sortScores_perm domains).mem_iff).mp (List.getElem_mem hlt)

theorem sorted_getD_mono {s : List ℚ}
    (hs : List.Sorted (fun a b => a ≤ b) s) {i j : Nat} (hij : i ≤ j)
    (hj : j < s.length) : s.getD i 0 ≤ s.getD j 0 := by
  have hi : i < s.length := lt_of_le_of_lt hij hj
  rw [List.getD_eq_getElem _ _ hi, List.getD_eq_getElem _ _ hj]
  rcases Nat.eq_or_lt_of_le hij with rfl | hlt
  · exact le_refl _
  · exact (List.pairwise_iff_getElem.mp hs) i j hi hj hlt

theorem cutoffVal_mono {s : List ℚ}
    (hs : List.Sorted (fun a b => a ≤ b) s) {i2 i1 : Nat}
    (h21 : i2 ≤ i1) (h1 : i1 < s.length) :
    s.getD (cutoffGo s i2 (s.length - i2) i2) 0 ≤
      s.getD (cutoffGo s i1 (s.length - i1) i1) 0 := by
  have h2 : i2 < s.length := lt_of_le_of_lt h21 h1
  have hge1 := (cutoffGo_props h1).2
  rcases cutoffGo_spec s i2 (s.length - i2) i2 rfl (by omega) with
    ⟨heq2, _⟩ | ⟨j2, heq2, hj2ge, hj2lt, hgt2, hmax2⟩
  · rw [heq2]
    exact le_trans (sorted_getD_mono hs h21 h1) hge1
  · rw [heq2]
    by_cases hj2i1 : j2 ≤ i1
    · exact le_trans (sorted_getD_mono hs hj2i1 h1) hge1
    · push_neg at hj2i1
      have heqv : s.getD i1 0 = s.getD i2 0 :=
        le_antisymm (hmax2 i1 h21 hj2i1) (sorted_getD_mono hs h21 h1)
      rcases cutoffGo_spec s i1 (s.length - i1) i1 rfl (by omega) with
        ⟨heq1, hall1⟩ | ⟨j1, heq1, hj1ge, hj1lt, hgt1, hmax1⟩
      · exact absurd (lt_of_lt_of_le (heqv ▸ hgt2)
          (hall1 j2 (le_of_lt hj2i1) hj2lt)) (lt_irrefl _)
      · rw [heq1]
        have hj21 : j2 ≤ j1 := by
          by_contra hcon
          push_neg at hcon
          have hle := hmax2 j1 (le_trans h21 hj1ge) hcon
          rw [← heqv] at hle
          exact absurd (lt_of_lt_of_le hgt1 hle) (lt_irrefl _)
        exact sorted_getD_mono hs hj21 hj1lt

/-- C6.  For a non-empty null domain set and `0 < fdr ≤ 1`,
`get_posterior_cutoff` sorts the scores ascending, takes the score at
index `⌊n·(1−fdr)⌋`, and returns the first strictly greater score after
that index when one exists, otherwise that quantile score; the returned
value is one of the null domain scores and is at least the raw quantile
score.  (Index arithmetic is modelled exactly over ℚ.) -/
theorem C6_quantile_cutoff (domains : List Dom) (fdr : ℚ)
    (hne : domains ≠ []) (h0 : 0 < fdr) (h1 : fdr ≤ 1) :
    getPosteriorCutoff domains fdr =
      specQuantileCutoff (sortScores domains)
        (quantIndex domains.length fdr) ∧
    getPosteriorCutoff domains fdr ∈ domains.map Dom.score ∧
    (sortScores domains).getD (quantIndex domains.length fdr) 0 ≤
      getPosteriorCutoff domains fdr := by
  have hn : 0 < domains.length := List.length_pos.mpr hne
  have hidx : quantIndex domains.length fdr < (sortScores domains).length := by
    rw [sortScores_length]
    exact quantIndex_lt hn h0 h1
  refine ⟨?_, cutoff_mem domains fdr hne h0 h1, ?_⟩
  · rw [getPosteriorCutoff_mid domains fdr h0 h1]
    unfold specQuantileCutoff
    exact cutoffGo_eq_find (sortScores domains) _ _ _ rfl
  · rw [getPosteriorCutoff_mid domains fdr h0 h1]
    exact (cutoffGo_props hidx).2

theorem C6_quantile_cutoff_witness :
    getPosteriorCutoff [⟨0, 0, 2, 0, 3, true⟩, ⟨0, 4, 6, 1, 1, true⟩] (1 / 2) =
      specQuantileCutoff
        (sortScores [⟨0, 0, 2, 0, 3, true⟩, ⟨0, 4, 6, 1, 1, true⟩])
        (quantIndex
          (List.length [(⟨0, 0, 2, 0, 3, true⟩ : Dom), ⟨0, 4, 6, 1, 1, true⟩])
          (1 / 2)) ∧
    getPosteriorCutoff [⟨0, 0, 2, 0, 3, true⟩, ⟨0, 4, 6, 1, 1, true⟩] (1 / 2) ∈
      List.map Dom.score [⟨0, 0, 2, 0, 3, true⟩, ⟨0, 4, 6, 1, 1, true⟩] :=
  ⟨(C6_quantile_cutoff [⟨0, 0, 2, 0, 3, true⟩, ⟨0, 4, 6, 1, 1, true⟩] (1 / 2)
      (by decide) (by norm_num) (by norm_num)).1,
   (C6_quantile_cutoff [⟨0, 0, 2, 0, 3, true⟩, ⟨0, 4, 6, 1, 1, true⟩] (1 / 2)
      (by decide) (by norm_num) (by norm_num)).2.1⟩

/-- C7 (amended).  The cutoff is antitone in `fdr` provided every null
domain score lies between `DBL_MIN` and `DBL_MAX` (in particular all
scores are positive); without that proviso the claim fails because the
`fdr > 1` branch returns the positive constant `DBL_MIN`, which can
exceed a cutoff computed from zero or negative scores. -/
theorem C7_fdr_monotone (domains : List Dom) (fdr1 fdr2 : ℚ)
    (hne : domains ≠ [])
    (hlo : ∀ d ∈ domains, dblMin ≤ d.score)
    (hhi : ∀ d ∈ domains, d.score ≤ dblMax)
    (h12 : fdr1 < fdr2) :
    getPosteriorCutoff domains fdr2 ≤ getPosteriorCutoff domains fdr1 := by
  have hmem_bounds : ∀ fdr : ℚ, 0 < fdr → fdr ≤ 1 →
      dblMin ≤ getPosteriorCutoff domains fdr ∧
      getPosteriorCutoff domains fdr ≤ dblMax := by
    intro fdr hf0 hf1
    rcases List.mem_map.mp (cutoff_mem domains fdr hne hf0 hf1) with ⟨d, hd, hds⟩
    exact ⟨hds ▸ hlo d hd, hds ▸ hhi d hd⟩
  by_cases hA : fdr1 ≤ 0
  · rw [cutoff_of_nonpos domains hA]
    by_cases hB : fdr2 ≤ 0
    · rw [cutoff_of_nonpos domains hB]
    · by_cases hC : 1 < fdr2
      · rw [cutoff_of_gt_one domains hC]
        exact le_of_lt dblMin_lt_dblMax
      · exact (hmem_bounds fdr2 (by linarith) (by linarith)).2
  · push_neg at hA
    by_cases hD : 1 < fdr1
    · rw [cutoff_of_gt_one domains hD, cutoff_of_gt_one domains (by linarith)]
    · push_neg at hD
      by_cases hE : 1 < fdr2
      · rw [cutoff_of_gt_one domains hE]
        exact (hmem_bounds fdr1 hA hD).1
      · push_neg at hE
        have hn : 0 < domains.length := List.length_pos.mpr hne
        rw [getPosteriorCutoff_mid domains fdr1 hA hD,
          getPosteriorCutoff_mid domains fdr2 (by linarith) hE]
        have hidx12 : quantIndex domains.length fdr2 ≤
            quantIndex domains.length fdr1 := by
          unfold quantIndex
          have hfl : Int.floor ((domains.length : ℚ) * (1 - fdr2)) ≤
              Int.floor ((domains.length : ℚ) * (1 - fdr1)) := by
            apply Int.floor_le_floor
            have hnq : (0 : ℚ) ≤ (domains.length : ℚ) := by positivity
            nlinarith
          omega
        have hidx1 : quantIndex domains.length fdr1 <
            (sortScores domains).length := by
          rw [sortScores_length]
          exact quantIndex_lt hn hA hD
        exact cutoffVal_mono (sortScores_sorted domains) hidx12 hidx1

theorem C7_fdr_monotone_witness :
    getPosteriorCutoff [⟨0, 0, 2, 0, 1, true⟩] (1 / 2) ≤
      getPosteriorCutoff [⟨0, 0, 2, 0, 1, true⟩] (1 / 4) :=
  C7_fdr_monotone [⟨0, 0, 2, 0, 1, true⟩] (1 / 4) (1 / 2) (by decide)
    (by
      intro d hd
      simp only [List.mem_singleton] at hd
      subst hd
      norm_num [dblMin])
    (by
      intro d hd
      simp only [List.mem_singleton] at hd
      subst hd
      norm_num [dblMax])
    (by norm_num)

/-- C7 (counterexample).  With a single null domain of score 0 (as the
pipeline produces for a trailing open domain) and `fdr1 = 1/2 < fdr2 =
3/2`, the cutoff at `fdr1` is 0 while the cutoff at `fdr2` is the positive
constant `DBL_MIN`, so `get_posterior_cutoff(fdr1) ≥
get_posterior_cutoff(fdr2)` fails across the `fdr > 1` branch. -/
theorem C7_counterexample :
    (1 / 2 : ℚ) < 3 / 2 ∧
    getPosteriorCutoff [⟨0, 5, 10, 0, 0, false⟩] (1 / 2) <
      getPosteriorCutoff [⟨0, 5, 10, 0, 0, false⟩] (3 / 2) := by
  refine ⟨by norm_num, ?_⟩
  have hs : sortScores [⟨0, 5, 10, 0, 0, false⟩] = [0] := by decide
  have hq : quantIndex 1 (1 / 2) = 0 := by
    unfold quantIndex
    norm_num
  have hmid := getPosteriorCutoff_mid [⟨0, 5, 10, 0, 0, false⟩] (1 / 2)
    (by norm_num) (by norm_num)
  rw [hmid]
  have hlen : (List.length [(⟨0, 5, 10, 0, 0, false⟩ : Dom)]) = 1 := by decide
  rw [hlen, hs, hq]
  have hgo : cutoffGo [0] 0 ((List.length [(0 : ℚ)]) - 0) 0 = 0 := by decide
  rw [hgo]
  have h32 : getPosteriorCutoff [⟨0, 5, 10, 0, 0, false⟩] (3 / 2) = dblMin :=
    cutoff_of_gt_one [⟨0, 5, 10, 0, 0, false⟩] (by norm_num)
  rw [h32]
  simpa using dblMin_pos

theorem length_listSwap (l : List α) (i j : Nat) :
    (listSwap l i j).length = l.length := by
  unfold listSwap
  cases h1 : l[i]? <;> cases h2 : l[j]? <;> simp

theorem cons_set_perm {α : Type u} (t : List α) :
    ∀ (k : Nat) (x b : α), t[k]? = some b →
      List.Perm (b :: t.set k x) (x :: t) := by
  induction t with
  | nil =>
    intro k x b h
    simp at h
  | cons y t ih =>
    intro k x b h
    cases k with
    | zero =>
      simp only [List.getElem?_cons_zero, Option.some_inj] at h
      subst h
      show List.Perm (y :: x :: t) (x :: y :: t)
      exact List.Perm.swap x y t
    | succ k =>
      simp only [List.getElem?_cons_succ] at h
      show List.Perm (b :: y :: t.set k x) (x :: y :: t)
      exact ((List.Perm.swap y b _).trans
        (List.Perm.cons y (ih k x b h))).trans (List.Perm.swap x y t)

theorem set_set_perm {α : Type u} :
    ∀ (l : List α) (i j : Nat) (a b : α), l[i]? = some a → l[j]? = some b →
      List.Perm ((l.set i b).set j a) l := by
  intro l
  induction l with
  | nil =>
    intro i j a b h1 _
    simp at h1
  | cons y t ih =>
    intro i j a b h1 h2
    cases i with
    | zero =>
      simp only [List.getElem?_cons_zero, Option.some_inj] at h1
      subst h1
      cases j with
      | zero =>
        simp only [List.getElem?_cons_zero, Option.some_inj] at h2
        subst h2
        show List.Perm (y :: t) (y :: t)
        exact List.Perm.refl _
      | succ k =>
        simp only [List.getElem?_cons_succ] at h2
        show List.Perm (b :: t.set k y) (y :: t)
        exact cons_set_perm t k y b h2
    | succ m =>
      cases j with
      | zero =>
        simp only [List.getElem?_cons_succ] at h1
        simp only [List.getElem?_cons_zero, Option.some_inj] at h2
        subst h2
        show List.Perm (a :: t.set m y) (y :: t)
        exact cons_set_perm t m y a h1
      | succ k =>
        simp only [List.getElem?_cons_succ] at h1 h2
        show List.Perm (y :: (t.set m b).set k a) (y :: t)
        exact List.Perm.cons y (ih m k a b h1 h2)

theorem listSwap_perm {α : Type u} (l : List α) (i j : Nat) :
    List.Perm (listSwap l i j) l := by
  unfold listSwap
  cases h1 : l[i]? with
  | none => exact List.Perm.refl _
  | some a =>
    cases h2 : l[j]? with
    | none => exact List.Perm.refl _
    | some b => exact set_set_perm l i j a b h1 h2

theorem fyGo_perm {α : Type u} (r : Nat → Nat) :
    ∀ (m k : Nat) (l : List α), List.Perm (fyGo r m k l) l := by
  intro m
  induction m with
  | zero =>
    intro k l
    exact List.Perm.refl _
  | succ m ih =>
    intro k l
    exact (ih (k + 1) (listSwap l k (r k % (k + 1)))).trans (listSwap_perm l k _)

theorem fy_perm {α : Type u} (r : Nat → Nat) (l : List α) :
    List.Perm (fy r l) l :=
  fyGo_perm r _ _ l

theorem fy_length {α : Type u} (r : Nat → Nat) (l : List α) :
    (fy r l).length = l.length :=
  (fy_perm r l).length_eq

theorem sliceB_eq_drop_take {α : Type u} (c d : Nat) (l : List α) :
    sliceB c d l = (l.take d).drop c :=
  (List.drop_take d c l).symm

theorem length_take_of_le {α : Type u} {a : Nat} {m : List α}
    (h : a ≤ m.length) : (m.take a).length = a := by
  rw [List.length_take]
  omega

theorem length_fy_sliceB {α : Type u} (r : Nat → Nat) {a b : Nat}
    {m : List α} (hab : a ≤ b) (hbl : b ≤ m.length) :
    (fy r (sliceB a b m)).length = b - a := by
  rw [fy_length]
  unfold sliceB
  rw [List.length_take, List.length_drop]
  omega

theorem shuffleSeg_take {α : Type u} (r : Nat → Nat) (m : List α)
    {a b : Nat} (hab : a ≤ b) (hbl : b ≤ m.length) :
    (shuffleSeg r a b m).take a = m.take a := by
  unfold shuffleSeg
  have hXlen : (m.take a).length = a := length_take_of_le (by omega)
  rw [List.append_assoc, List.take_append_eq_append_take, hXlen, Nat.sub_self,
    List.take_zero, List.append_nil, List.take_take]
  congr 1
  omega

theorem shuffleSeg_drop {α : Type u} (r : Nat → Nat) (m : List α)
    {a b : Nat} (hab : a ≤ b) (hbl : b ≤ m.length) :
    (shuffleSeg r a b m).drop b = m.drop b := by
  unfold shuffleSeg
  have hXlen : (m.take a).length = a := length_take_of_le (by omega)
  have hFlen : (fy r (sliceB a b m)).length = b - a := length_fy_sliceB r hab hbl
  rw [List.append_assoc, List.drop_append_eq_append_drop, hXlen,
    List.drop_append_eq_append_drop, hFlen]
  have e1 : (m.take a).drop b = [] := List.drop_eq_nil_of_le (by omega)
  have e2 : (fy r (sliceB a b m)).drop (b - a) = [] :=
    List.drop_eq_nil_of_le (by omega)
  have e3 : b - a - (b - a) = 0 := by omega
  rw [e1, e2, e3, List.drop_zero, List.nil_append, List.nil_append]

theorem shuffleSeg_mid {α : Type u} (r : Nat → Nat) (m : List α)
    {a b : Nat} (hab : a ≤ b) (hbl : b ≤ m.length) :
    sliceB a b (shuffleSeg r a b m) = fy r (sliceB a b m) := by
  have hXlen : (m.take a).length = a := length_take_of_le (by omega)
  have hFlen : (fy r (sliceB a b m)).length = b - a := length_fy_sliceB r hab hbl
  show ((shuffleSeg r a b m).drop a).take (b - a) = fy r (sliceB a b m)
  unfold shuffleSeg
  rw [List.append_assoc, List.drop_append_eq_append_drop, hXlen, Nat.sub_self,
    List.drop_zero, List.drop_eq_nil_of_le (le_of_eq hXlen), List.nil_append,
    List.take_append_eq_append_take, hFlen, Nat.sub_self, List.take_zero,
    List.append_nil, ← hFlen, List.take_length]

theorem shuffleSeg_length {α : Type u} (r : Nat → Nat) (m : List α)
    {a b : Nat} (hab : a ≤ b) (hbl : b ≤ m.length) :
    (shuffleSeg r a b m).length = m.length := by
  unfold shuffleSeg
  have hXlen : (m.take a).length = a := length_take_of_le (by omega)
  have hFlen : (fy r (sliceB a b m)).length = b - a := length_fy_sliceB r hab hbl
  rw [List.length_append, List.length_append, hXlen, hFlen, List.length_drop]
  omega

theorem sliceB_shuffleSeg_of_le {α : Type u} (r : Nat → Nat) (m : List α)
    {a b : Nat} (c d : Nat) (hab : a ≤ b) (hbl : b ≤ m.length) (hda : d ≤ a) :
    sliceB c d (shuffleSeg r a b m) = sliceB c d m := by
  rw [sliceB_eq_drop_take, sliceB_eq_drop_take]
  congr 1
  have h1 : (shuffleSeg r a b m).take d = ((shuffleSeg r a b m).take a).take d := by
    rw [List.take_take]
    congr 1
    omega
  rw [h1, shuffleSeg_take r m hab hbl, List.take_take]
  congr 1
  omega

theorem sliceB_shuffleSeg_of_ge {α : Type u} (r : Nat → Nat) (m : List α)
    {a b : Nat} (c d : Nat) (hab : a ≤ b) (hbl : b ≤ m.length) (hbc : b ≤ c) :
    sliceB c d (shuffleSeg r a b m) = sliceB c d m := by
  unfold sliceB
  congr 1
  have h1 : (shuffleSeg r a b m).drop c = ((shuffleSeg r a b m).drop b).drop (c - b) := by
    rw [List.drop_drop]
    congr 1
    omega
  rw [h1, shuffleSeg_drop r m hab hbl, List.drop_drop]
  congr 1
  omega

theorem resetPointsOf_pairwise (D : Nat) (sites : List Site) :
    List.Pairwise (fun a b => a < b) (resetPointsOf D sites) :=
  List.Pairwise.sublist (List.filter_sublist _) (List.pairwise_lt_range _)

theorem resetPointsOf_lt {D : Nat} {sites : List Site} :
    ∀ p ∈ resetPointsOf D sites, p < sites.length :=
  fun _ hp => (mem_resetPointsOf.mp hp).1

theorem getD_mono_of_pairwise {rp : List Nat}
    (hp : List.Pairwise (fun a b => a < b) rp) {i j : Nat} (hij : i < j)
    (hj : j < rp.length) : rp.getD i 0 < rp.getD j 0 := by
  have hi : i < rp.length := lt_trans hij hj
  rw [List.getD_eq_getElem _ _ hi, List.getD_eq_getElem _ _ hj]
  exact (List.pairwise_iff_getElem.mp hp) i j hi hj hij

theorem getD_mem_of_lt {rp : List Nat} {i : Nat} (hi : i < rp.length) :
    rp.getD i 0 ∈ rp := by
  rw [List.getD_eq_getElem _ _ hi]
  exact List.getElem_mem hi

theorem shuffleUpTo_succ (r : Nat → Nat → Nat) (rp : List Nat)
    (meth : List (ℚ × ℚ)) (k : Nat) :
    shuffleUpTo r rp meth (k + 1) =
      shuffleSeg (r k) (rp.getD k 0) (rp.getD (k + 1) 0)
        (shuffleUpTo r rp meth k) := by
  unfold shuffleUpTo
  rw [List.range_succ, List.foldl_append]
  rfl

theorem shuffleUpTo_slices (r : Nat → Nat → Nat) (rp : List Nat)
    (meth : List (ℚ × ℚ))
    (hp : List.Pairwise (fun a b => a < b) rp)
    (hlt : ∀ p ∈ rp, p ≤ meth.length) :
    ∀ k, k ≤ rp.length - 1 →
      (shuffleUpTo r rp meth k).length = meth.length ∧
      ∀ i, i < rp.length →
        List.Perm
          (sliceB (chainStart rp i) (chainEnd rp meth.length i)
            (shuffleUpTo r rp meth k))
          (sliceB (chainStart rp i) (chainEnd rp meth.length i) meth) := by
  intro k
  induction k with
  | zero =>
    intro _
    exact ⟨rfl, fun i _ => List.Perm.refl _⟩
  | succ k ih =>
    intro hk
    have hk' : k < rp.length - 1 := by omega
    have hk1 : k + 1 < rp.length := by omega
    have hkl : k < rp.length := by omega
    obtain ⟨ihlen, ihperm⟩ := ih (by omega)
    have hab : rp.getD k 0 ≤ rp.getD (k + 1) 0 :=
      le_of_lt (getD_mono_of_pairwise hp (by omega) hk1)
    have hbl : rp.getD (k + 1) 0 ≤ (shuffleUpTo r rp meth k).length := by
      rw [ihlen]
      exact hlt _ (getD_mem_of_lt hk1)
    rw [shuffleUpTo_succ]
    refine ⟨?_, ?_⟩
    · rw [shuffleSeg_length _ _ hab hbl, ihlen]
    · intro i hi
      rcases lt_trichotomy i k with hik | hik | hik
      · have hend : chainEnd rp meth.length i = rp.getD (i + 1) 0 := by
          unfold chainEnd
          rw [if_pos (by omega)]
        have hle : chainEnd rp meth.length i ≤ rp.getD k 0 := by
          rw [hend]
          rcases Nat.eq_or_lt_of_le (by omega : i + 1 ≤ k) with heq | hlt2
          · rw [heq]
          · exact le_of_lt (getD_mono_of_pairwise hp hlt2 hkl)
        rw [sliceB_shuffleSeg_of_le _ _ _ _ hab hbl hle]
        exact ihperm i hi
      · have hstart : chainStart rp i = rp.getD k 0 := by
          unfold chainStart
          rw [hik]
        have hend : chainEnd rp meth.length i = rp.getD (k + 1) 0 := by
          unfold chainEnd
          rw [if_pos (by omega), hik]
        rw [hstart, hend, shuffleSeg_mid (r k) (shuffleUpTo r rp meth k) hab hbl]
        refine (fy_perm _ _).trans ?_
        have h2 := ihperm i hi
        rw [hstart, hend] at h2
        exact h2
      · have hge : rp.getD (k + 1) 0 ≤ chainStart rp i := by
          unfold chainStart
          rcases Nat.eq_or_lt_of_le (by omega : k + 1 ≤ i) with heq | hlt2
          · rw [heq]
          · exact le_of_lt (getD_mono_of_pairwise hp hlt2 hi)
        rw [sliceB_shuffleSeg_of_ge _ _ _ _ hab hbl hge]
        exact ihperm i hi

/-- C4.  `shuffle_cpg_sites` only permutes the count pairs inside single
chains of the segmentation: for every chain (each reset point opens one,
the last chain running to the end of the table), the slice of the meth
vector covering that chain after shuffling is a permutation of the slice
before it (so the per-chain multiset of (methylated, unmethylated) pairs
is preserved and no pair crosses a chain boundary), and the vector keeps
its length.  The result holds for every abstracted random source `r`; the
site table with the genomic coordinates is not passed to the function at
all, so coordinates are unchanged by construction.  (Because the code's
reset list has no end sentinel, the loop `i < size() - 1` never touches
the last chain — its slice is preserved identically.) -/
theorem C4_shuffle_within_chains (r : Nat → Nat → Nat) (D : Nat)
    (cpgs : List Site) (meth : List (ℚ × ℚ)) (reads : List Nat) :
    (shuffleCpgSites r (separateRegions D cpgs meth reads).resetPoints
        (separateRegions D cpgs meth reads).meth).length =
      (separateRegions D cpgs meth reads).meth.length ∧
    ∀ i, i < (separateRegions D cpgs meth reads).resetPoints.length →
      List.Perm
        (sliceB (chainStart (separateRegions D cpgs meth reads).resetPoints i)
          (chainEnd (separateRegions D cpgs meth reads).resetPoints
            (separateRegions D cpgs meth reads).meth.length i)
          (shuffleCpgSites r (separateRegions D cpgs meth reads).resetPoints
            (separateRegions D cpgs meth reads).meth))
        (sliceB (chainStart (separateRegions D cpgs meth reads).resetPoints i)
          (chainEnd (separateRegions D cpgs meth reads).resetPoints
            (separateRegions D cpgs meth reads).meth.length i)
          (separateRegions D cpgs meth reads).meth) := by
  have hrp : (separateRegions D cpgs meth reads).resetPoints =
      resetPointsOf D ((retainTriples cpgs meth reads).map (fun x => x.1)) := rfl
  have hmlen : (separateRegions D cpgs meth reads).meth.length =
      ((retainTriples cpgs meth reads).map (fun x => x.1)).length := by
    show ((retainTriples cpgs meth reads).map (fun x => x.2.1)).length = _
    rw [List.length_map, List.length_map]
  have hp : List.Pairwise (fun a b => a < b)
      (separateRegions D cpgs meth reads).resetPoints := by
    rw [hrp]
    exact resetPointsOf_pairwise _ _
  have hlt : ∀ p ∈ (separateRegions D cpgs meth reads).resetPoints,
      p ≤ (separateRegions D cpgs meth reads).meth.length := by
    intro p hpmem
    rw [hrp] at hpmem
    rw [hmlen]
    exact le_of_lt (resetPointsOf_lt p hpmem)
  have hmain := shuffleUpTo_slices r
    (separateRegions D cpgs meth reads).resetPoints
    (separateRegions D cpgs meth reads).meth hp hlt
    ((separateRegions D cpgs meth reads).resetPoints.length - 1) (le_refl _)
  exact hmain

theorem C4_shuffle_within_chains_witness :
    (shuffleCpgSites (fun _ _ => 0)
        (separateRegions 2000 [⟨0, 0, 1⟩, ⟨0, 5000, 5001⟩]
          [(1, 0), (2, 0)] [1, 1]).resetPoints
        (separateRegions 2000 [⟨0, 0, 1⟩, ⟨0, 5000, 5001⟩]
          [(1, 0), (2, 0)] [1, 1]).meth).length =
      (separateRegions 2000 [⟨0, 0, 1⟩, ⟨0, 5000, 5001⟩]
        [(1, 0), (2, 0)] [1, 1]).meth.length ∧
    List.Perm
      (sliceB
        (chainStart (separateRegions 2000 [⟨0, 0, 1⟩, ⟨0, 5000, 5001⟩]
          [(1, 0), (2, 0)] [1, 1]).resetPoints 0)
        (chainEnd (separateRegions 2000 [⟨0, 0, 1⟩, ⟨0, 5000, 5001⟩]
          [(1, 0), (2, 0)] [1, 1]).resetPoints
          (separateRegions 2000 [⟨0, 0, 1⟩, ⟨0, 5000, 5001⟩]
            [(1, 0), (2, 0)] [1, 1]).meth.length 0)
        (shuffleCpgSites (fun _ _ => 0)
          (separateRegions 2000 [⟨0, 0, 1⟩, ⟨0, 5000, 5001⟩]
            [(1, 0), (2, 0)] [1, 1]).resetPoints
          (separateRegions 2000 [⟨0, 0, 1⟩, ⟨0, 5000, 5001⟩]
            [(1, 0), (2, 0)] [1, 1]).meth))
      (sliceB
        (chainStart (separateRegions 2000 [⟨0, 0, 1⟩, ⟨0, 5000, 5001⟩]
          [(1, 0), (2, 0)] [1, 1]).resetPoints 0)
        (chainEnd (separateRegions 2000 [⟨0, 0, 1⟩, ⟨0, 5000, 5001⟩]
          [(1, 0), (2, 0)] [1, 1]).resetPoints
          (separateRegions 2000 [⟨0, 0, 1⟩, ⟨0, 5000, 5001⟩]
            [(1, 0), (2, 0)] [1, 1]).meth.length 0)
        (separateRegions 2000 [⟨0, 0, 1⟩, ⟨0, 5000, 5001⟩]
          [(1, 0), (2, 0)] [1, 1]).meth) :=
  ⟨(C4_shuffle_within_chains (fun _ _ => 0) 2000 [⟨0, 0, 1⟩, ⟨0, 5000, 5001⟩]
      [(1, 0), (2, 0)] [1, 1]).1,
   (C4_shuffle_within_chains (fun _ _ => 0) 2000 [⟨0, 0, 1⟩, ⟨0, 5000, 5001⟩]
      [(1, 0), (2, 0)] [1, 1]).2 0 (by decide)⟩

theorem validReset_pairwise {rp : List Nat} {n : Nat} (hv : ValidReset rp n) :
    List.Pairwise (fun a b => a < b) rp := by
  have h := hv.1
  rwa [List.chain'_iff_pairwise] at h

theorem validReset_mono {rp : List Nat} {n : Nat} (hv : ValidReset rp n)
    {i j : Nat} (hij : i < j) (hj : j < rp.length) :
    rp.getD i 0 < rp.getD j 0 :=
  getD_mono_of_pairwise (validReset_pairwise hv) hij hj

theorem validReset_ne {rp : List Nat} {n : Nat} (hv : ValidReset rp n) :
    rp ≠ [] := by
  intro hcon
  rw [hcon] at hv
  exact Option.noConfusion hv.2.1

theorem validReset_head {rp : List Nat} {n : Nat} (hv : ValidReset rp n) :
    rp.getD 0 0 = 0 := by
  have h := hv.2.1
  rw [List.head?_eq_getElem?] at h
  rw [List.getD_eq_getElem?_getD, h]
  rfl

theorem validReset_zero_mem {rp : List Nat} {n : Nat} (hv : ValidReset rp n) :
    0 ∈ rp := by
  have hne := validReset_ne hv
  have hlen : 0 < rp.length := List.length_pos.mpr hne
  have h := validReset_head hv
  rw [← h]
  exact getD_mem_of_lt hlen

theorem validReset_last {rp : List Nat} {n : Nat} (hv : ValidReset rp n) :
    rp.getD (rp.length - 1) 0 = n := by
  have h := hv.2.2
  rw [List.getLast?_eq_getElem?] at h
  rw [List.getD_eq_getElem?_getD, h]
  rfl

theorem validReset_len2 {rp : List Nat} {n : Nat} (hv : ValidReset rp n)
    (hn : 0 < n) : 2 ≤ rp.length := by
  have hne := validReset_ne hv
  have hlen : 0 < rp.length := List.length_pos.mpr hne
  by_contra hcon
  push_neg at hcon
  have h1 : rp.length = 1 := by omega
  have h0 := validReset_head hv
  have hl := validReset_last hv
  rw [h1] at hl
  simp only [Nat.sub_self] at hl
  rw [h0] at hl
  omega

theorem boundary_iff {rp : List Nat} {n : Nat} (hv : ValidReset rp n)
    {i ridx : Nat} (hr1 : 1 ≤ ridx) (hrlt : ridx < rp.length)
    (hge : i ≤ rp.getD ridx 0)
    (hpassed : ∀ j, 1 ≤ j → j < ridx → rp.getD j 0 < i) :
    rp.getD ridx 0 = i ↔ (0 < i ∧ i ∈ rp) := by
  constructor
  · intro heq
    have h0 : rp.getD 0 0 < rp.getD ridx 0 := validReset_mono hv hr1 hrlt
    rw [validReset_head hv, heq] at h0
    refine ⟨h0, ?_⟩
    rw [← heq]
    exact getD_mem_of_lt hrlt
  · rintro ⟨hi0, hmem⟩
    rcases List.mem_iff_getElem.mp hmem with ⟨j, hj, hrpj⟩
    have hgd : rp.getD j 0 = i := by
      rw [List.getD_eq_getElem _ _ hj, hrpj]
    rcases lt_trichotomy j ridx with hlt | rfl | hgt
    · rcases Nat.eq_zero_or_pos j with rfl | hj1
      · rw [validReset_head hv] at hgd
        omega
      · have := hpassed j hj1 hlt
        omega
    · exact hgd
    · have := validReset_mono hv hgt hj
      omega

theorem boundary_advance {rp : List Nat} {n : Nat} (hv : ValidReset rp n)
    {i ridx : Nat} (hrlt : ridx < rp.length) (heq : rp.getD ridx 0 = i)
    (hi : i < n) : ridx + 1 < rp.length ∧ i + 1 ≤ rp.getD (ridx + 1) 0 := by
  have hne : ridx ≠ rp.length - 1 := by
    intro hcon
    rw [hcon, validReset_last hv] at heq
    omega
  have h1 : ridx + 1 < rp.length := by omega
  have h2 : rp.getD ridx 0 < rp.getD (ridx + 1) 0 :=
    validReset_mono hv (Nat.lt_succ_self ridx) h1
  exact ⟨h1, by omega⟩

theorem sumPost_single (post : List ℚ) (a : Nat) :
    sumPost post a a = psAt post a := by
  unfold sumPost
  rw [Finset.sum_Ico_succ_top (le_refl a)]
  simp

theorem sumPost_extend (post : List ℚ) {a i : Nat} (hai : a ≤ i)
    (hi : 0 < i) :
    sumPost post a (i - 1) + psAt post i = sumPost post a i := by
  unfold sumPost
  have h1 : i - 1 + 1 = i := by omega
  rw [h1, Finset.sum_Ico_succ_top hai]

theorem binv_init {cpgs : List Site} {post : List ℚ} {rp : List Nat}
    {classes : List Bool} (hv : ValidReset rp classes.length)
    (hn : 0 < classes.length) :
    BInv cpgs post rp classes 0 buildInit := by
  refine ⟨rfl, le_refl 1, ?_, Nat.zero_le _, ?_, rfl, ?_, ?_, ?_, ?_, ?_⟩
  · show 1 < rp.length
    have := validReset_len2 hv hn
    omega
  · intro j hj1 hj2
    have h3 : j < 1 := hj2
    omega
  · intro d hd
    simp [buildInit] at hd
  · intro hcon
    exact absurd hcon (by simp [buildInit])
  · intro _ d hd
    simp [buildInit] at hd
  · intro _
    exact Or.inl rfl
  · intro _
    rfl

theorem resetPhase_minv {cpgs : List Site} {post : List ℚ} {rp : List Nat}
    {classes : List Bool} (hv : ValidReset rp classes.length)
    {i : Nat} {s : BuildState} (hi : i < classes.length)
    (hinv : BInv cpgs post rp classes i s) :
    MInv cpgs post rp classes i (resetPhase rp s i) := by
  have hob : (s.oob || decide (rp.length ≤ s.resetIdx)) = false := by
    rw [hinv.oobF]
    simp only [Bool.false_or, decide_eq_false_iff_not, not_le]
    exact hinv.rLt
  have hsplit : resetPhase rp s i =
      if rp.getD s.resetIdx 0 = i then
        if s.inDomain then
          { s with oob := s.oob || decide (rp.length ≤ s.resetIdx),
                   domains := closeTop s.domains s.prevEnd s.score,
                   inDomain := false, score := 0, resetIdx := s.resetIdx + 1 }
        else { s with oob := s.oob || decide (rp.length ≤ s.resetIdx),
                      resetIdx := s.resetIdx + 1 }
      else { s with oob := s.oob || decide (rp.length ≤ s.resetIdx) } := rfl
  rw [hsplit]
  by_cases hb : rp.getD s.resetIdx 0 = i
  · rw [if_pos hb]
    have hadv := boundary_advance hv hinv.rLt hb hi
    have hmem : 0 < i ∧ i ∈ rp :=
      (boundary_iff hv hinv.rOne hinv.rLt hinv.rGe hinv.rPassed).mp hb
    have hpass1 : ∀ j, 1 ≤ j → j < s.resetIdx + 1 → rp.getD j 0 < i + 1 := by
      intro j hj1 hj2
      rcases Nat.lt_or_ge j s.resetIdx with hlt | hge
      · have := hinv.rPassed j hj1 hlt
        omega
      · have hje : j = s.resetIdx := by omega
        rw [hje, hb]
        omega
    cases hd : s.inDomain with
    | false =>
      rw [if_neg Bool.false_ne_true]
      refine ⟨hob, (show 1 ≤ s.resetIdx + 1 by omega), hadv.1, hadv.2, hpass1,
        hinv.pe, ?_, ?_, ?_, ?_, ?_⟩
      · intro d' hd' hcl
        exact hinv.cOK d' hd' hcl
      · intro hcon
        exact Bool.noConfusion hcon
      · intro _
        exact hinv.allC hd
      · intro _
        exact Or.inr (Or.inr hmem.2)
      · intro _
        exact hinv.sc0 hd
    | true =>
      rw [if_pos rfl]
      obtain ⟨a, haLt, hrun, hlmax, hchain, hscore, d, rest, hdoms, hdcl,
        hdchrom, hdstart, hdstop, hrest⟩ := hinv.opn hd
      have hi0 : 0 < i := by omega
      have h11 : i - 1 + 1 = i := by omega
      refine ⟨hob, (show 1 ≤ s.resetIdx + 1 by omega), hadv.1, hadv.2, hpass1,
        hinv.pe, ?_, ?_, ?_, ?_, ?_⟩
      · intro d' hd' hcl
        rw [hdoms] at hd'
        show DomSpec cpgs post rp classes d'
        rcases List.mem_cons.mp hd' with hdc | hdrest
        · subst hdc
          refine ⟨a, i - 1, ⟨by omega, by omega, ?_⟩, hlmax, ?_, ?_, ?_, ?_, ?_, ?_⟩
          · intro k hk1 hk2
            exact hrun k hk1 (by omega)
          · show i - 1 + 1 = classes.length ∨ (i - 1 + 1) ∈ rp ∨
              cls classes (i - 1 + 1) = false
            rw [h11]
            exact Or.inr (Or.inl hmem.2)
          · intro p hp
            exact hchain p hp
          · exact hdchrom
          · exact hdstart
          · show s.prevEnd = (siteAt cpgs (i - 1)).stop
            rw [hinv.pe, if_neg (by omega)]
          · exact hscore
        · exact hinv.cOK d' (hdoms ▸ List.mem_cons_of_mem d hdrest) hcl
      · intro hcon
        exact Bool.noConfusion hcon
      · intro _
        intro d' hd'
        rw [hdoms] at hd'
        rcases List.mem_cons.mp hd' with hdc | hdrest
        · subst hdc
          rfl
        · exact hrest d' hdrest
      · intro _
        exact Or.inr (Or.inr hmem.2)
      · intro _
        rfl
  · rw [if_neg hb]
    have hge1 : i + 1 ≤ rp.getD s.resetIdx 0 := by
      have := hinv.rGe
      omega
    refine ⟨hob, hinv.rOne, hinv.rLt, hge1, ?_, hinv.pe, hinv.cOK, ?_, ?_, ?_, ?_⟩
    · intro j hj1 hj2
      have := hinv.rPassed j hj1 hj2
      omega
    · intro hd
      obtain ⟨a, haLt, hrun, hlmax, hchain, hscore, d, rest, hdoms, hdcl,
        hdchrom, hdstart, hdstop, hrest⟩ := hinv.opn hd
      have hi0 : 0 < i := by omega
      have hnotmem : i ∉ rp := by
        intro hcon
        exact hb ((boundary_iff hv hinv.rOne hinv.rLt hinv.rGe
          hinv.rPassed).mpr ⟨hi0, hcon⟩)
      refine ⟨a, haLt, hrun, hlmax, ?_, hscore, d, rest, hdoms, hdcl,
        hdchrom, hdstart, hdstop, hrest⟩
      intro p hp
      rcases hchain p hp with hpa | hpi
      · exact Or.inl hpa
      · right
        have hne2 : p ≠ i := by
          intro hcon
          rw [hcon] at hp
          exact hnotmem hp
        omega
    · intro hd
      exact hinv.allC hd
    · intro hd
      rcases hinv.nin hd with h0 | hcf
      · exact Or.inl h0
      · exact Or.inr (Or.inl hcf)
    · intro hd
      exact hinv.sc0 hd

theorem classPhase_binv {cpgs : List Site} {post : List ℚ} {rp : List Nat}
    {classes : List Bool} (hv : ValidReset rp classes.length)
    {i : Nat} {s1 : BuildState} (hi : i < classes.length)
    (hm : MInv cpgs post rp classes i s1) :
    BInv cpgs post rp classes (i + 1)
      { classPhase cpgs post classes s1 i with
        prevEnd := (siteAt cpgs i).stop } := by
  have hsplit : classPhase cpgs post classes s1 i =
      if classes.getD i false = true then
        if s1.inDomain then { s1 with score := s1.score + post.getD i 0 }
        else
          { s1 with inDomain := true,
                    domains := ⟨(siteAt cpgs i).chrom, (siteAt cpgs i).start,
                                (siteAt cpgs i).stop, s1.nDomains, 0,
                                false⟩ :: s1.domains,
                    nDomains := s1.nDomains + 1,
                    score := s1.score + post.getD i 0 }
      else if s1.inDomain then
        { s1 with domains := closeTop s1.domains s1.prevEnd s1.score,
                  inDomain := false, score := 0 }
      else s1 := rfl
  have hpe1 : ∀ x : BuildState,
      ({ x with prevEnd := (siteAt cpgs i).stop }).prevEnd =
        if i + 1 = 0 then 0 else (siteAt cpgs (i + 1 - 1)).stop := by
    intro x
    rw [if_neg (Nat.succ_ne_zero i)]
    rfl
  rw [hsplit]
  clear hsplit
  by_cases hcls : classes.getD i false = true
  · rw [if_pos hcls]
    cases hd : s1.inDomain with
    | true =>
      rw [if_pos rfl]
      obtain ⟨a, haLt, hrun, hlmax, hchain, hscore, d, rest, hdoms, hdcl,
        hdchrom, hdstart, hdstop, hrest⟩ := hm.opn hd
      refine ⟨hm.oobF, hm.rOne, hm.rLt, hm.rGe1, hm.rPassed1, hpe1 _,
        ?_, ?_, ?_, ?_, ?_⟩
      · intro d' hd' hcl
        exact hm.cOK d' hd' hcl
      · intro _
        refine ⟨a, by omega, ?_, hlmax, ?_, ?_, d, rest, hdoms, hdcl,
          hdchrom, hdstart, hdstop, hrest⟩
        · intro k hk1 hk2
          rcases Nat.lt_or_ge k i with hki | hki
          · exact hrun k hk1 hki
          · have hk : k = i := by omega
            rw [hk]
            exact hcls
        · intro p hp
          have := hchain p hp
          omega
        · show s1.score + post.getD i 0 = sumPost post a (i + 1 - 1)
          rw [hscore]
          exact sumPost_extend post (by omega) (by omega)
      · intro hcon
        exact Bool.noConfusion hcon
      · intro hcon
        exact Bool.noConfusion hcon
      · intro hcon
        exact Bool.noConfusion hcon
    | false =>
      rw [if_neg Bool.false_ne_true]
      refine ⟨hm.oobF, hm.rOne, hm.rLt, hm.rGe1, hm.rPassed1, hpe1 _,
        ?_, ?_, ?_, ?_, ?_⟩
      · intro d' hd' hcl
        rcases List.mem_cons.mp hd' with hdc | hdrest
        · subst hdc
          exact Bool.noConfusion hcl
        · exact hm.cOK d' hdrest hcl
      · intro _
        have hsc := hm.sc0 hd
        refine ⟨i, by omega, ?_, ?_, ?_, ?_,
          ⟨(siteAt cpgs i).chrom, (siteAt cpgs i).start, (siteAt cpgs i).stop,
            s1.nDomains, 0, false⟩, s1.domains, rfl, rfl, rfl, rfl, rfl, ?_⟩
        · intro k hk1 hk2
          have hk : k = i := by omega
          rw [hk]
          exact hcls
        · by_cases hz : i = 0
          · exact Or.inl (by rw [hz]; exact validReset_zero_mem hv)
          · rcases hm.ninB hd with h0 | hcf | hmem2
            · exact absurd h0 hz
            · exact Or.inr ⟨by omega, hcf⟩
            · exact Or.inl hmem2
        · intro p hp
          omega
        · show s1.score + post.getD i 0 = sumPost post i (i + 1 - 1)
          rw [hsc, zero_add]
          exact (sumPost_single post i).symm
        · exact hm.allC hd
      · intro hcon
        exact Bool.noConfusion hcon
      · intro hcon
        exact Bool.noConfusion hcon
      · intro hcon
        exact Bool.noConfusion hcon
  · rw [if_neg hcls]
    have hcf : classes.getD i false = false := by
      revert hcls
      cases classes.getD i false <;> simp
    cases hd : s1.inDomain with
    | true =>
      rw [if_pos rfl]
      obtain ⟨a, haLt, hrun, hlmax, hchain, hscore, d, rest, hdoms, hdcl,
        hdchrom, hdstart, hdstop, hrest⟩ := hm.opn hd
      have hi0 : 0 < i := by omega
      refine ⟨hm.oobF, hm.rOne, hm.rLt, hm.rGe1, hm.rPassed1, hpe1 _,
        ?_, ?_, ?_, ?_, ?_⟩
      · intro d' hd' hcl
        rw [show ({ s1 with
              domains := closeTop s1.domains s1.prevEnd s1.score,
              inDomain := false, score := 0 } : BuildState).domains =
            closeTop s1.domains s1.prevEnd s1.score from rfl, hdoms] at hd'
        rcases List.mem_cons.mp hd' with hdc | hdrest2
        · subst hdc
          refine ⟨a, i - 1,
            ⟨by omega, by omega, fun k hk1 hk2 => hrun k hk1 (by omega)⟩,
            hlmax, ?_, ?_, hdchrom, hdstart, ?_, hscore⟩
          · show i - 1 + 1 = classes.length ∨ (i - 1 + 1) ∈ rp ∨
              cls classes (i - 1 + 1) = false
            have h11 : i - 1 + 1 = i := by omega
            rw [h11]
            exact Or.inr (Or.inr hcf)
          · intro p hp
            have := hchain p hp
            omega
          · show s1.prevEnd = (siteAt cpgs (i - 1)).stop
            rw [hm.pe, if_neg (by omega)]
        · exact hm.cOK d' (hdoms ▸ List.mem_cons_of_mem d hdrest2) hcl
      · intro hcon
        exact Bool.noConfusion hcon
      · intro _
        intro d' hd'
        rw [show ({ s1 with
              domains := closeTop s1.domains s1.prevEnd s1.score,
              inDomain := false, score := 0 } : BuildState).domains =
            closeTop s1.domains s1.prevEnd s1.score from rfl, hdoms] at hd'
        rcases List.mem_cons.mp hd' with hdc | hdrest2
        · subst hdc
          rfl
        · exact hrest d' hdrest2
      · intro _
        right
        show cls classes (i + 1 - 1) = false
        exact hcf
      · intro _
        rfl
    | false =>
      rw [if_neg Bool.false_ne_true]
      refine ⟨hm.oobF, hm.rOne, hm.rLt, hm.rGe1, hm.rPassed1, hpe1 _,
        hm.cOK, ?_, ?_, ?_, ?_⟩
      · intro hcon
        have h2 : s1.inDomain = true := hcon
        rw [hd] at h2
        exact Bool.noConfusion h2
      · intro _
        exact hm.allC hd
      · intro _
        right
        show cls classes (i + 1 - 1) = false
        exact hcf
      · intro _
        exact hm.sc0 hd

theorem buildGo_binv {cpgs : List Site} {post : List ℚ} {rp : List Nat}
    {classes : List Bool} (hv : ValidReset rp classes.length)
    (hn : 0 < classes.length) :
    ∀ i, i ≤ classes.length →
      BInv cpgs post rp classes i (buildGo cpgs post rp classes i) := by
  intro i
  induction i with
  | zero =>
    intro _
    exact binv_init hv hn
  | succ i ih =>
    intro hi1
    have hi : i < classes.length := by omega
    have hm := resetPhase_minv hv hi (ih (by omega))
    exact classPhase_binv hv hi hm

theorem classPhase_inDomain_of_fg {cpgs : List Site} {post : List ℚ}
    {classes : List Bool} {s1 : BuildState} {i : Nat}
    (hcls : classes.getD i false = true) :
    (classPhase cpgs post classes s1 i).inDomain = true := by
  unfold classPhase
  rw [if_pos hcls]
  cases hd : s1.inDomain with
  | true =>
    rw [if_pos rfl]
  | false =>
    rw [if_neg Bool.false_ne_true]

/-- C3.  When the very last site of the table carries the foreground
label, the domain opened for that final run is still open when
`build_domains` returns: the builder's `in_domain` flag is still set, the
most recently pushed region was never completed (`set_end`/`set_score`
were never applied to it — its `closed` instrumentation flag is still
false), and every completed region in the output was closed earlier; the
missing close after the loop is the `// Do we miss the final
domain?????` comment in the source. -/
theorem C3_final_domain_never_closed (cpgs : List Site) (post : List ℚ)
    (rp : List Nat) (classes : List Bool)
    (hv : ValidReset rp classes.length) (hne : classes ≠ [])
    (hlast : cls classes (classes.length - 1) = true) :
    (buildDomains cpgs post rp classes).inDomain = true ∧
    ∃ d rest, (buildDomains cpgs post rp classes).domains = d :: rest ∧
      d.closed = false ∧ ∀ d' ∈ rest, d'.closed = true := by
  have hn : 0 < classes.length := List.length_pos.mpr hne
  obtain ⟨k, hk⟩ : ∃ k, classes.length = k + 1 := ⟨classes.length - 1, by omega⟩
  have hfin : BInv cpgs post rp classes classes.length
      (buildGo cpgs post rp classes classes.length) :=
    buildGo_binv hv hn classes.length (le_refl _)
  have hin : (buildDomains cpgs post rp classes).inDomain = true := by
    show (buildGo cpgs post rp classes classes.length).inDomain = true
    rw [hk]
    show (classPhase cpgs post classes
      (resetPhase rp (buildGo cpgs post rp classes k) k) k).inDomain = true
    apply classPhase_inDomain_of_fg
    have : classes.length - 1 = k := by omega
    rw [← this]
    exact hlast
  obtain ⟨a, _, _, _, _, _, d, rest, hdoms, hdcl, _, _, _, hrest⟩ :=
    hfin.opn hin
  exact ⟨hin, d, rest, hdoms, hdcl, hrest⟩

theorem C3_final_domain_never_closed_witness :
    (buildDomains [⟨0, 5, 7⟩] [2 / 3] [0, 1] [true]).inDomain = true ∧
    ∃ d rest, (buildDomains [⟨0, 5, 7⟩] [2 / 3] [0, 1] [true]).domains =
        d :: rest ∧ d.closed = false ∧ ∀ d' ∈ rest, d'.closed = true :=
  C3_final_domain_never_closed [⟨0, 5, 7⟩] [2 / 3] [0, 1] [true]
    ⟨by simp, rfl, rfl⟩ (by decide) (by decide)

/-- C9.  Every region completed by `build_domains` (i.e. on which
`set_end`/`set_score` were applied) is a maximal foreground run lying in a
single chain: its chromosome and start come from the run's first site, its
end is the last retained member site's end (`prev_end`, also when the
close is triggered by a chain boundary), and its score is the sum of the
members' posterior scores.  Stated for reset lists of the shape the spec
prescribes (strictly increasing, from 0 to the sentinel), under which the
loop's `reset_points[reset_idx]` reads are in bounds. -/
theorem C9_completed_domains_are_maximal_runs (cpgs : List Site)
    (post : List ℚ) (rp : List Nat) (classes : List Bool)
    (hv : ValidReset rp classes.length) :
    ∀ d ∈ (buildDomains cpgs post rp classes).domains, d.closed = true →
      DomSpec cpgs post rp classes d := by
  rcases Nat.eq_zero_or_pos classes.length with hz | hn
  · intro d hd _
    have hempty : (buildDomains cpgs post rp classes).domains = [] := by
      show (buildGo cpgs post rp classes classes.length).domains = []
      rw [hz]
      rfl
    rw [hempty] at hd
    exact absurd hd (List.not_mem_nil d)
  · exact (buildGo_binv hv hn classes.length (le_refl _)).cOK

theorem C9_completed_domains_are_maximal_runs_witness :
    DomSpec [⟨1, 10, 12⟩, ⟨1, 20, 22⟩, ⟨1, 30, 32⟩] [1 / 2, 1 / 3, 1 / 4]
      [0, 3] [true, true, false] ⟨1, 10, 22, 0, 5 / 6, true⟩ :=
  C9_completed_domains_are_maximal_runs
    [⟨1, 10, 12⟩, ⟨1, 20, 22⟩, ⟨1, 30, 32⟩] [1 / 2, 1 / 3, 1 / 4]
    [0, 3] [true, true, false] ⟨by simp, rfl, rfl⟩
    ⟨1, 10, 22, 0, 5 / 6, true⟩
    (by
      have h : (buildDomains [⟨1, 10, 12⟩, ⟨1, 20, 22⟩, ⟨1, 30, 32⟩]
          [1 / 2, 1 / 3, 1 / 4] [0, 3] [true, true, false]).domains =
          [⟨1, 10, 22, 0, 5 / 6, true⟩] := by
        norm_num [buildDomains, buildGo, buildStep, resetPhase, classPhase,
          closeTop, buildInit, siteAt, stD]
      rw [h]
      exact List.mem_singleton.mpr rfl)
    rfl

end Hmr
